import Mathlib

/-!
Shallow embedding of `linkedin_job_bot.py`: a pipeline that loads job
postings, scores each posting's description against a resume by keyword
overlap, filters by a threshold, and appends one log line per qualifying
posting.

Text is modelled as a list of Unicode code points (`List ℕ`).  Python's
binary64 float arithmetic in `ats_score` is modelled exactly over `ℚ`
through the correct-rounding map `fl` (IEEE 754 round to nearest, ties to
even, subnormals included): the int division, the product with 100, and
the result of `round(x, 2)` (exact decimal rounding half-to-even of the
float's value, returned as the nearest float) each pass through `fl`.
File state is modelled by explicit passing of
the log file's contents; the wall-clock timestamp taken by
`log_application` is an explicit parameter.  Recursions over ever-shorter
suffixes of the text are written with an explicit fuel argument (set to
the text length) so that every definition reduces in the kernel; the
fuel-free unfolding equations are proved below each definition.
-/

namespace JobBot

/-- Text as a list of Unicode code points. -/
abbrev Text := List ℕ

/-- Decode a Lean string literal into its code points (for concrete inputs). -/
def ofString (s : String) : Text := s.toList.map Char.toNat

/-- ASCII letter, the leading-character class `[a-zA-Z]` of `WORD_RE`. -/
def isLetter (c : ℕ) : Bool := decide ((65 ≤ c ∧ c ≤ 90) ∨ (97 ≤ c ∧ c ≤ 122))

/-- The continuation character class `[a-zA-Z0-9+.#-]` of `WORD_RE`:
letters, digits, and the literal characters `+` (43), `.` (46), `#` (35),
`-` (45). -/
def isWordChar (c : ℕ) : Bool :=
  isLetter c || decide (48 ≤ c ∧ c ≤ 57) || decide (c = 43 ∨ c = 46 ∨ c = 35 ∨ c = 45)

/-- ASCII lowercasing, the effect of Python's `str.lower` on the ASCII
characters that `WORD_RE` can match. -/
def asciiLower (c : ℕ) : ℕ := if 65 ≤ c ∧ c ≤ 90 then c + 32 else c

/-- ASCII uppercasing (`str.upper` on ASCII characters). -/
def asciiUpper (c : ℕ) : ℕ := if 97 ≤ c ∧ c ≤ 122 then c - 32 else c

/-- Fueled scanner behind `finditerWORD_RE`; the fuel only forces
structural recursion and is irrelevant once at least the text length. -/
def finditerAux : ℕ → Text → List Text
  | _, [] => []
  | 0, _ :: _ => []
  | fuel + 1, c :: rest =>
    if isLetter c then
      if rest.takeWhile isWordChar = [] then finditerAux fuel rest
      else (c :: rest.takeWhile isWordChar) :: finditerAux fuel (rest.dropWhile isWordChar)
    else finditerAux fuel rest

/-- `WORD_RE.finditer`: the non-overlapping matches of
`[a-zA-Z][a-zA-Z0-9+.#-]+` in the text, left to right, each match greedy
(maximal).  A match needs a letter followed by at least one continuation
character; scanning resumes right after each match. -/
def finditerWORD_RE (s : Text) : List Text := finditerAux s.length s

/-- `normalize_words`: `[match.group(0).lower() for match in WORD_RE.finditer(text)]`. -/
def normalize_words (text : Text) : List Text :=
  (finditerWORD_RE text).map (fun t => t.map asciiLower)

/-- Round-half-to-even to the nearest integer: the rounding Python's
`round` applies. -/
def roundHalfEven (q : ℚ) : ℤ :=
  if q - ⌊q⌋ < 1/2 then ⌊q⌋
  else if 1/2 < q - ⌊q⌋ then ⌊q⌋ + 1
  else if ⌊q⌋ % 2 = 0 then ⌊q⌋ else ⌊q⌋ + 1

/-- Exact rounding of a rational to two decimal places, half to even: the
idealized `round(x, 2)` (the decimal-rounding step inside Python's
`round`, and the formula the spec states for the score). -/
def decRound2 (q : ℚ) : ℚ := (roundHalfEven (q * 100) : ℚ) / 100

/-- Floor of the base-2 logarithm of a positive rational, computed from
the bit lengths of numerator and denominator (unspecified on `q ≤ 0`,
which the score pipeline never produces). -/
def qlog2 (q : ℚ) : ℤ :=
  if (2:ℚ) ^ ((q.num.natAbs.log2 : ℤ) - (q.den.log2 : ℤ)) ≤ q
  then (q.num.natAbs.log2 : ℤ) - (q.den.log2 : ℤ)
  else (q.num.natAbs.log2 : ℤ) - (q.den.log2 : ℤ) - 1

/-- The exponent at which binary64 rounds a positive value: its binade,
clamped below at -1022 (the subnormal range). -/
def flExp (q : ℚ) : ℤ := max (qlog2 q) (-1022)

/-- Round a positive rational to the nearest binary64 double, ties to
even: the significand is scaled to `[2^52, 2^53)` (or to the fixed
subnormal scale) and rounded half-to-even. -/
def flPos (q : ℚ) : ℚ :=
  (roundHalfEven (q * (2:ℚ) ^ ((52:ℤ) - flExp q)) : ℚ) * (2:ℚ) ^ (flExp q - 52)

/-- Correct rounding of a rational to binary64 (IEEE 754 round to
nearest, ties to even), the rounding CPython applies after `/` on ints,
`*` on floats, and inside `round`.  Overflow to infinity is not modelled:
every value this program rounds is at most 10000. -/
def fl (q : ℚ) : ℚ :=
  if q = 0 then 0 else if q < 0 then -flPos (-q) else flPos q

/-- Python's `round(x, 2)` on a binary64 `x`: the exact value of `x` is
rounded to two decimal places half-to-even, and the result is returned as
the nearest binary64 double. -/
def pyRound2 (q : ℚ) : ℚ := fl (decRound2 q)

/-- `ats_score`: intersection of the two normalized token sets over the
size of the job-description token set, times 100, rounded to 2 decimals;
0.0 when the job description has no tokens.  Each arithmetic step is a
binary64 operation: `len(matches) / len(job_words)` is a correctly
rounded float division, `* 100` a correctly rounded float product, and
`round(·, 2)` rounds the float's exact value to hundredths and returns
the nearest float. -/
def ats_score (resume_text job_description : Text) : ℚ :=
  let resume_words := (normalize_words resume_text).toFinset
  let job_words := (normalize_words job_description).toFinset
  if job_words = ∅ then 0
  else pyRound2 (fl (fl (((resume_words ∩ job_words).card : ℚ) / (job_words.card : ℚ)) * 100))

/-- A job posting (`Job` dataclass): all six fields are text, immutable. -/
structure Job where
  job_id : Text
  title : Text
  company : Text
  location : Text
  description : Text
  url : Text
deriving DecidableEq

/-- A loosely-typed value as found in the jobs JSON: a string, or a
non-string JSON scalar such as a number (what `str(...)` may be applied to). -/
inductive PyVal where
  | str : Text → PyVal
  | int : ℤ → PyVal
deriving DecidableEq

/-- Fueled decimal printer behind `natDec`; the fuel only forces
structural recursion and is irrelevant once at least the value itself. -/
def natDecAux : ℕ → ℕ → Text
  | 0, n => [48 + n % 10]
  | fuel + 1, n => if n < 10 then [48 + n] else natDecAux fuel (n / 10) ++ [48 + n % 10]

/-- Decimal digits of a natural number (Python `str` on a non-negative int). -/
def natDec (n : ℕ) : Text := natDecAux n n

/-- Python `str` on an int: optional minus sign then decimal digits. -/
def intDec (n : ℤ) : Text := if n < 0 then 45 :: natDec n.natAbs else natDec n.toNat

/-- Python `str(...)` on a loosely-typed JSON scalar. -/
def pyStr : PyVal → Text
  | .str s => s
  | .int n => intDec n

/-- One record of the jobs JSON array: every key is optional. -/
structure RawJob where
  id : Option PyVal
  title : Option Text
  company : Option Text
  location : Option Text
  description : Option Text
  url : Option Text
deriving DecidableEq

/-- `load_jobs`: builds one `Job` per record by appending to a list, with
`str(item.get("id", ""))` for the identifier and `item.get(k, "")` for the
other five fields. -/
def load_jobs (data : List RawJob) : List Job :=
  data.foldl (fun jobs item =>
    jobs ++ [{ job_id := pyStr (item.id.getD (PyVal.str []))
               title := item.title.getD []
               company := item.company.getD []
               location := item.location.getD []
               description := item.description.getD []
               url := item.url.getD [] }]) []

/-- `filter_jobs_by_score`: keeps, in input order, each job whose score
meets the threshold, paired with its score. -/
def filter_jobs_by_score (jobs : List Job) (resume_text : Text) (threshold : ℚ) :
    List (Job × ℚ) :=
  jobs.foldl (fun results job =>
    if threshold ≤ ats_score resume_text job.description
    then results ++ [(job, ats_score resume_text job.description)]
    else results) []

/-- Helper for `format2`: a non-negative number of hundredths rendered as
integer part, `.` (46), and exactly two digits. -/
def natFormat2 (k : ℕ) : Text := natDec (k / 100) ++ [46, 48 + k % 100 / 10, 48 + k % 10]

/-- Python `f"{x:.2f}"`: the value rounded half-to-even to hundredths,
rendered with exactly two decimal places. -/
def format2 (q : ℚ) : Text :=
  if roundHalfEven (q * 100) < 0 then 45 :: natFormat2 (roundHalfEven (q * 100)).natAbs
  else natFormat2 (roundHalfEven (q * 100)).toNat

/-- The log line built by `log_application`:
`f"{timestamp} | APPLIED | {job_id} | {title} | {company} | {location} | {score:.2f} | {url}\n"`. -/
def application_entry (timestamp : Text) (job : Job) (score : ℚ) : Text :=
  timestamp ++ ofString " | APPLIED | " ++ job.job_id ++ ofString " | " ++ job.title ++
  ofString " | " ++ job.company ++ ofString " | " ++ job.location ++ ofString " | " ++
  format2 score ++ ofString " | " ++ job.url ++ ofString "\n"

/-- `log_application`: opens the log for append and writes the entry; the
file's contents are passed and returned explicitly, the timestamp taken by
`datetime.utcnow()` is an explicit parameter. -/
def log_application (log_file : Text) (timestamp : Text) (job : Job) (score : ℚ) : Text :=
  log_file ++ application_entry timestamp job score

/-- `apply_to_jobs`: one `log_application` call per (job, score) pair, in order. -/
def apply_to_jobs (jobs_with_scores : List (Job × ℚ)) (timestamp : Text)
    (log_file : Text) : Text :=
  jobs_with_scores.foldl (fun acc p => log_application acc timestamp p.1 p.2) log_file

/-- The batch of entries one `apply_to_jobs` pass generates, one per pair. -/
def run_entries (pairs : List (Job × ℚ)) (timestamp : Text) : List Text :=
  pairs.map (fun p => application_entry timestamp p.1 p.2)

/-- Fueled scanner behind `wordRuns`. -/
def wordRunsAux : ℕ → Text → List Text
  | _, [] => []
  | 0, _ :: _ => []
  | fuel + 1, c :: rest =>
    if isWordChar c then
      (c :: rest.takeWhile isWordChar) :: wordRunsAux fuel (rest.dropWhile isWordChar)
    else wordRunsAux fuel rest

/-- The maximal runs of `[a-zA-Z0-9+.#-]` characters of a text, in order
(the candidate regions the spec's "maximal run" wording refers to). -/
def wordRuns (s : Text) : List Text := wordRunsAux s.length s

/-- The regex match a maximal word-character run contributes: drop the
leading non-letter characters; the rest is a match iff a letter is
followed by at least one more character (`WORD_RE` needs length ≥ 2). -/
def tokenOfRun (run : Text) : Option Text :=
  if 2 ≤ (run.dropWhile (fun c => !isLetter c)).length
  then some (run.dropWhile (fun c => !isLetter c)) else none

/-- The per-record mapping the spec describes: one posting per record,
missing fields default to the empty string, the identifier is coerced to
text by `str`. -/
def jobOfRaw (item : RawJob) : Job :=
  { job_id := pyStr (item.id.getD (PyVal.str []))
    title := item.title.getD []
    company := item.company.getD []
    location := item.location.getD []
    description := item.description.getD []
    url := item.url.getD [] }

/-- A job description with 160 distinct tokens (the smallest job-token
count at which the binary64 score and the exact rounded formula can
disagree: the exact percentage 100*23/160 = 14.375 sits on a decimal
half-boundary while 23/160 is not a dyadic rational). -/
def jobCex : Text := ofString "t000 t001 t002 t003 t004 t005 t006 t007 t008 t009 t010 t011 t012 t013 t014 t015 t016 t017 t018 t019 t020 t021 t022 t023 t024 t025 t026 t027 t028 t029 t030 t031 t032 t033 t034 t035 t036 t037 t038 t039 t040 t041 t042 t043 t044 t045 t046 t047 t048 t049 t050 t051 t052 t053 t054 t055 t056 t057 t058 t059 t060 t061 t062 t063 t064 t065 t066 t067 t068 t069 t070 t071 t072 t073 t074 t075 t076 t077 t078 t079 t080 t081 t082 t083 t084 t085 t086 t087 t088 t089 t090 t091 t092 t093 t094 t095 t096 t097 t098 t099 t100 t101 t102 t103 t104 t105 t106 t107 t108 t109 t110 t111 t112 t113 t114 t115 t116 t117 t118 t119 t120 t121 t122 t123 t124 t125 t126 t127 t128 t129 t130 t131 t132 t133 t134 t135 t136 t137 t138 t139 t140 t141 t142 t143 t144 t145 t146 t147 t148 t149 t150 t151 t152 t153 t154 t155 t156 t157 t158 t159"

/-- A resume sharing exactly 23 of `jobCex`'s 160 tokens. -/
def resumeCex : Text := ofString "t000 t001 t002 t003 t004 t005 t006 t007 t008 t009 t010 t011 t012 t013 t014 t015 t016 t017 t018 t019 t020 t021 t022"

lemma finditerAux_fuel :
    ∀ (f₁ : ℕ) (s : Text) (f₂ : ℕ), s.length ≤ f₁ → s.length ≤ f₂ →
      finditerAux f₁ s = finditerAux f₂ s := by
  intro f₁
  induction f₁ with
  | zero =>
    intro s f₂ h₁ _
    have : s = [] := List.length_eq_zero.mp (Nat.le_zero.mp h₁)
    subst this
    cases f₂ <;> rfl
  | succ f ih =>
    intro s f₂ h₁ h₂
    cases s with
    | nil => cases f₂ <;> rfl
    | cons c rest =>
      cases f₂ with
      | zero => simp at h₂
      | succ g =>
        simp only [List.length_cons, Nat.succ_le_succ_iff] at h₁ h₂
        have hdrop₁ : (rest.dropWhile isWordChar).length ≤ f :=
          le_trans (List.dropWhile_sublist isWordChar).length_le h₁
        have hdrop₂ : (rest.dropWhile isWordChar).length ≤ g :=
          le_trans (List.dropWhile_sublist isWordChar).length_le h₂
        simp only [finditerAux]
        rw [ih rest g h₁ h₂, ih (rest.dropWhile isWordChar) g hdrop₁ hdrop₂]

/-- Fuel-free unfolding of `finditerWORD_RE` on a cons cell. -/
lemma finditerWORD_RE_cons (c : ℕ) (rest : Text) :
    finditerWORD_RE (c :: rest) =
      if isLetter c then
        if rest.takeWhile isWordChar = [] then finditerWORD_RE rest
        else (c :: rest.takeWhile isWordChar) ::
          finditerWORD_RE (rest.dropWhile isWordChar)
      else finditerWORD_RE rest := by
  show finditerAux (rest.length + 1) (c :: rest) = _
  simp only [finditerAux]
  rw [finditerAux_fuel rest.length (rest.dropWhile isWordChar) (rest.dropWhile isWordChar).length
      (List.dropWhile_sublist isWordChar).length_le le_rfl]
  rfl

lemma finditerWORD_RE_nil : finditerWORD_RE [] = [] := rfl

/-- Evaluation helper: `roundHalfEven q = n` when `q` is within `[n, n + 1/2)`. -/
lemma roundHalfEven_eq_low (q : ℚ) (n : ℤ) (h1 : (n : ℚ) ≤ q) (h2 : q < n + 1/2) :
    roundHalfEven q = n := by
  have hf : ⌊q⌋ = n := Int.floor_eq_iff.mpr ⟨h1, by linarith⟩
  unfold roundHalfEven
  rw [hf, if_pos (by linarith)]

/-- Evaluation helper: `roundHalfEven q = n` when `q` is within `(n - 1/2, n]`. -/
lemma roundHalfEven_eq_high (q : ℚ) (n : ℤ) (h1 : (n : ℚ) - 1/2 < q) (h2 : q ≤ n) :
    roundHalfEven q = n := by
  rcases eq_or_lt_of_le h2 with heq | hlt
  · exact roundHalfEven_eq_low q n (le_of_eq heq.symm) (by rw [heq]; linarith)
  · have hf : ⌊q⌋ = n - 1 := by
      apply Int.floor_eq_iff.mpr
      constructor
      · push_cast; linarith
      · push_cast; linarith
    unfold roundHalfEven
    rw [hf]
    rw [if_neg (by push_cast; linarith), if_pos (by push_cast; linarith)]
    omega

/-- Evaluation helper for an exact tie: round half to even. -/
lemma roundHalfEven_eq_half (q : ℚ) (n : ℤ) (h : q = (n : ℚ) + 1/2) :
    roundHalfEven q = if n % 2 = 0 then n else n + 1 := by
  have hf : ⌊q⌋ = n := by
    apply Int.floor_eq_iff.mpr
    constructor
    · rw [h]; linarith
    · rw [h]; linarith
  unfold roundHalfEven
  rw [hf, if_neg (by rw [h]; norm_num), if_neg (by rw [h]; norm_num)]

lemma roundHalfEven_le_add_half (q : ℚ) : (roundHalfEven q : ℚ) ≤ q + 1/2 := by
  have hfl : (⌊q⌋ : ℚ) ≤ q := Int.floor_le q
  unfold roundHalfEven
  split_ifs with h1 h2 h3
  · linarith
  · push_cast; linarith [not_lt.mp h1]
  · linarith
  · push_cast; linarith [not_lt.mp h1]

/-! ### The binary64 rounding `fl` -/

lemma roundHalfEven_nonneg {q : ℚ} (h : 0 ≤ q) : 0 ≤ roundHalfEven q := by
  have h0 : (0 : ℤ) ≤ ⌊q⌋ := Int.floor_nonneg.mpr h
  unfold roundHalfEven
  split_ifs <;> omega

lemma roundHalfEven_le_int {q : ℚ} {N : ℤ} (h : q ≤ N) : roundHalfEven q ≤ N := by
  have hfl : ⌊q⌋ ≤ N := by
    have := Int.floor_le_floor h
    rwa [Int.floor_intCast] at this
  have hq : (⌊q⌋ : ℚ) ≤ q := Int.floor_le q
  unfold roundHalfEven
  split_ifs with h1 h2 h3
  · exact hfl
  · have hhalf : (⌊q⌋ : ℚ) + 1/2 ≤ q := by
      have := not_lt.mp h1
      linarith
    have : (⌊q⌋ : ℚ) < (N : ℚ) := by linarith
    have := Int.cast_lt.mp this
    omega
  · exact hfl
  · have hhalf : (⌊q⌋ : ℚ) + 1/2 ≤ q := by
      have := not_lt.mp h1
      linarith
    have : (⌊q⌋ : ℚ) < (N : ℚ) := by linarith
    have := Int.cast_lt.mp this
    omega


lemma qlog2_spec {q : ℚ} (hq : 0 < q) :
    (2:ℚ) ^ qlog2 q ≤ q ∧ q < (2:ℚ) ^ (qlog2 q + 1) := by
  have hnum : 0 < q.num := Rat.num_pos.mpr hq
  have hden : 0 < q.den := q.den_pos
  have hqden : (0:ℚ) < (q.den : ℚ) := by exact_mod_cast hden
  have hna : q.num.natAbs ≠ 0 := by
    simp only [ne_eq, Int.natAbs_eq_zero]
    omega
  have hnZ : (2 ^ q.num.natAbs.log2 : ℤ) ≤ q.num := by
    have h := Nat.log2_self_le hna
    have : (2 ^ q.num.natAbs.log2 : ℤ) ≤ (q.num.natAbs : ℤ) := by exact_mod_cast h
    rwa [Int.natAbs_of_nonneg hnum.le] at this
  have hnZ2 : q.num < (2 ^ (q.num.natAbs.log2 + 1) : ℤ) := by
    have h := Nat.lt_log2_self (n := q.num.natAbs)
    have : (q.num.natAbs : ℤ) < (2 ^ (q.num.natAbs.log2 + 1) : ℤ) := by exact_mod_cast h
    rwa [Int.natAbs_of_nonneg hnum.le] at this
  have A1 : (2:ℚ) ^ (q.num.natAbs.log2 : ℤ) ≤ (q.num : ℚ) := by
    rw [zpow_natCast]
    exact_mod_cast hnZ
  have A2 : (q.num : ℚ) < (2:ℚ) ^ ((q.num.natAbs.log2 : ℤ) + 1) := by
    have : ((q.num.natAbs.log2 : ℤ) + 1) = ((q.num.natAbs.log2 + 1 : ℕ) : ℤ) := by push_cast; ring
    rw [this, zpow_natCast]
    exact_mod_cast hnZ2
  have B1 : (2:ℚ) ^ (q.den.log2 : ℤ) ≤ (q.den : ℚ) := by
    rw [zpow_natCast]
    exact_mod_cast Nat.log2_self_le (by omega)
  have B2 : (q.den : ℚ) < (2:ℚ) ^ ((q.den.log2 : ℤ) + 1) := by
    have : ((q.den.log2 : ℤ) + 1) = ((q.den.log2 + 1 : ℕ) : ℤ) := by push_cast; ring
    rw [this, zpow_natCast]
    exact_mod_cast Nat.lt_log2_self (n := q.den)
  have hqeq : q = (q.num : ℚ) / (q.den : ℚ) := (Rat.num_div_den q).symm
  have lower : (2:ℚ) ^ ((q.num.natAbs.log2 : ℤ) - (q.den.log2 : ℤ) - 1) < q := by
    have step : (2:ℚ) ^ ((q.num.natAbs.log2 : ℤ) - (q.den.log2 : ℤ) - 1) * (q.den : ℚ)
        < (q.num : ℚ) := by
      calc (2:ℚ) ^ ((q.num.natAbs.log2 : ℤ) - (q.den.log2 : ℤ) - 1) * (q.den : ℚ)
          < (2:ℚ) ^ ((q.num.natAbs.log2 : ℤ) - (q.den.log2 : ℤ) - 1) *
              (2:ℚ) ^ ((q.den.log2 : ℤ) + 1) :=
            mul_lt_mul_of_pos_left B2 (zpow_pos (by norm_num) _)
        _ = (2:ℚ) ^ (q.num.natAbs.log2 : ℤ) := by
            rw [← zpow_add₀ (by norm_num : (2:ℚ) ≠ 0)]
            congr 1
            ring
        _ ≤ (q.num : ℚ) := A1
    have := (lt_div_iff₀ hqden).mpr step
    rwa [Rat.num_div_den q] at this
  have upper : q < (2:ℚ) ^ ((q.num.natAbs.log2 : ℤ) - (q.den.log2 : ℤ) + 1) := by
    have step : (q.num : ℚ)
        < (2:ℚ) ^ ((q.num.natAbs.log2 : ℤ) - (q.den.log2 : ℤ) + 1) * (q.den : ℚ) := by
      calc (q.num : ℚ) < (2:ℚ) ^ ((q.num.natAbs.log2 : ℤ) + 1) := A2
        _ = (2:ℚ) ^ ((q.num.natAbs.log2 : ℤ) - (q.den.log2 : ℤ) + 1) *
              (2:ℚ) ^ (q.den.log2 : ℤ) := by
            rw [← zpow_add₀ (by norm_num : (2:ℚ) ≠ 0)]
            congr 1
            ring
        _ ≤ (2:ℚ) ^ ((q.num.natAbs.log2 : ℤ) - (q.den.log2 : ℤ) + 1) * (q.den : ℚ) :=
            mul_le_mul_of_nonneg_left B1 (zpow_pos (by norm_num) _).le
    have := (div_lt_iff₀ hqden).mpr step
    rwa [Rat.num_div_den q] at this
  unfold qlog2
  split_ifs with h
  · exact ⟨h, upper⟩
  · refine ⟨lower.le, ?_⟩
    have : (q.num.natAbs.log2 : ℤ) - (q.den.log2 : ℤ) - 1 + 1 =
        (q.num.natAbs.log2 : ℤ) - (q.den.log2 : ℤ) := by ring
    rw [this]
    exact lt_of_not_le h

lemma qlog2_eq {q : ℚ} {e : ℤ} (h1 : (2:ℚ) ^ e ≤ q) (h2 : q < (2:ℚ) ^ (e + 1)) :
    qlog2 q = e := by
  have hq : 0 < q := lt_of_lt_of_le (zpow_pos (by norm_num) e) h1
  obtain ⟨l, u⟩ := qlog2_spec hq
  by_contra hne
  rcases lt_or_gt_of_ne hne with hlt | hgt
  · have : (2:ℚ) ^ (qlog2 q + 1) ≤ (2:ℚ) ^ e :=
      (zpow_le_zpow_iff_right₀ (by norm_num : (1:ℚ) < 2)).mpr (by omega)
    linarith
  · have : (2:ℚ) ^ (e + 1) ≤ (2:ℚ) ^ (qlog2 q) :=
      (zpow_le_zpow_iff_right₀ (by norm_num : (1:ℚ) < 2)).mpr (by omega)
    linarith

/-- Evaluation of `fl` at a positive value from its binade and the
rounded scaled significand. -/
lemma fl_eval {q : ℚ} {e n : ℤ}
    (h1 : (2:ℚ) ^ e ≤ q) (h2 : q < (2:ℚ) ^ (e + 1)) (h3 : -1022 ≤ e)
    (hr : roundHalfEven (q * (2:ℚ) ^ ((52:ℤ) - e)) = n) :
    fl q = (n : ℚ) * (2:ℚ) ^ (e - 52) := by
  have hq : 0 < q := lt_of_lt_of_le (zpow_pos (by norm_num) e) h1
  have hfe : flExp q = e := by
    rw [flExp, qlog2_eq h1 h2]
    exact max_eq_left h3
  rw [fl, if_neg (ne_of_gt hq), if_neg (not_lt.mpr hq.le), flPos, hfe, hr]

lemma flPos_nonneg {q : ℚ} (h : 0 < q) : 0 ≤ flPos q := by
  apply mul_nonneg _ (zpow_pos (by norm_num) _).le
  have : (0:ℤ) ≤ roundHalfEven (q * (2:ℚ) ^ ((52:ℤ) - flExp q)) :=
    roundHalfEven_nonneg (mul_nonneg h.le (zpow_pos (by norm_num) _).le)
  exact_mod_cast this

lemma fl_nonneg {q : ℚ} (h : 0 ≤ q) : 0 ≤ fl q := by
  rw [fl]
  split_ifs with h0 hneg
  · exact le_refl 0
  · exact absurd hneg (not_lt.mpr h)
  · exact flPos_nonneg (lt_of_le_of_ne h (Ne.symm h0))

/-- `fl` never rounds past an integer bound of at most `2^52`. -/
lemma fl_le_intN {q : ℚ} {N : ℤ} (hN0 : 0 < N) (hq : q ≤ N) (hN : N ≤ 2 ^ 52) :
    fl q ≤ N := by
  rw [fl]
  split_ifs with h0 hneg
  · exact_mod_cast hN0.le
  · have : (0:ℚ) ≤ (N:ℚ) := by exact_mod_cast hN0.le
    have := flPos_nonneg (neg_pos.mpr hneg)
    linarith
  · have hqpos : 0 < q := lt_of_le_of_ne (not_lt.mp hneg) (Ne.symm h0)
    have hNQ : (N:ℚ) ≤ (2:ℚ) ^ (52:ℤ) := by
      rw [show ((52:ℤ)) = ((52:ℕ):ℤ) from rfl, zpow_natCast]
      exact_mod_cast hN
    have hlog : qlog2 q ≤ 52 := by
      by_contra hc
      push_neg at hc
      have h1 : (2:ℚ) ^ (53:ℤ) ≤ (2:ℚ) ^ (qlog2 q) :=
        (zpow_le_zpow_iff_right₀ (by norm_num : (1:ℚ) < 2)).mpr (by omega)
      have h2 : (2:ℚ) ^ (qlog2 q) ≤ q := (qlog2_spec hqpos).1
      have h3 : (2:ℚ) ^ (52:ℤ) < (2:ℚ) ^ (53:ℤ) := by norm_num
      linarith
    have he52 : flExp q ≤ 52 := by
      rw [flExp]
      exact max_le hlog (by norm_num)
    set e := flExp q with hedef
    set k := ((52:ℤ) - e).toNat with hkdef
    have hk : ((52:ℤ)) - e = (k : ℤ) := (Int.toNat_of_nonneg (by omega)).symm
    have hscaled : q * (2:ℚ) ^ ((52:ℤ) - e) ≤ ((N * 2 ^ k : ℤ) : ℚ) := by
      push_cast
      rw [hk, zpow_natCast]
      exact mul_le_mul_of_nonneg_right hq (by positivity)
    have hrk := roundHalfEven_le_int hscaled
    have hfin : ((N * 2 ^ k : ℤ) : ℚ) * (2:ℚ) ^ (e - 52) = N := by
      push_cast
      rw [← zpow_natCast (2:ℚ) k, ← hk, mul_assoc, ← zpow_add₀ (by norm_num : (2:ℚ) ≠ 0)]
      norm_num
    calc flPos q
        = (roundHalfEven (q * (2:ℚ) ^ ((52:ℤ) - e)) : ℚ) * (2:ℚ) ^ (e - 52) := rfl
      _ ≤ ((N * 2 ^ k : ℤ) : ℚ) * (2:ℚ) ^ (e - 52) := by
          apply mul_le_mul_of_nonneg_right _ (zpow_pos (by norm_num) _).le
          exact_mod_cast hrk
      _ = N := hfin

/-- The rounding error of `fl` in a known binade: at most half an ulp up. -/
lemma fl_le_add {q : ℚ} {e : ℤ}
    (h1 : (2:ℚ) ^ e ≤ q) (h2 : q < (2:ℚ) ^ (e + 1)) (h3 : -1022 ≤ e) :
    fl q ≤ q + (2:ℚ) ^ (e - 53) := by
  have hq : 0 < q := lt_of_lt_of_le (zpow_pos (by norm_num) e) h1
  have hfe : flExp q = e := by
    rw [flExp, qlog2_eq h1 h2]
    exact max_eq_left h3
  rw [fl, if_neg (ne_of_gt hq), if_neg (not_lt.mpr hq.le), flPos, hfe]
  have hrb := roundHalfEven_le_add_half (q * (2:ℚ) ^ ((52:ℤ) - e))
  have hpow : (0:ℚ) < (2:ℚ) ^ ((e:ℤ) - 52) := zpow_pos (by norm_num) _
  calc (roundHalfEven (q * (2:ℚ) ^ ((52:ℤ) - e)) : ℚ) * (2:ℚ) ^ (e - 52)
      ≤ (q * (2:ℚ) ^ ((52:ℤ) - e) + 1/2) * (2:ℚ) ^ (e - 52) :=
        mul_le_mul_of_nonneg_right hrb hpow.le
    _ = q + (2:ℚ) ^ (e - 53) := by
        have hqq : q * (2:ℚ) ^ ((52:ℤ) - e) * (2:ℚ) ^ (e - 52) = q := by
          rw [mul_assoc, ← zpow_add₀ (by norm_num : (2:ℚ) ≠ 0),
            show ((52:ℤ)) - e + (e - 52) = 0 by ring, zpow_zero, mul_one]
        have hhalf : (1/2 : ℚ) * (2:ℚ) ^ (e - 52) = (2:ℚ) ^ (e - 53) := by
          rw [show (1/2 : ℚ) = (2:ℚ) ^ (-1 : ℤ) by norm_num,
            ← zpow_add₀ (by norm_num : (2:ℚ) ≠ 0),
            show (-1 : ℤ) + (e - 52) = e - 53 by ring]
        calc (q * (2:ℚ) ^ ((52:ℤ) - e) + 1/2) * (2:ℚ) ^ (e - 52)
            = q * (2:ℚ) ^ ((52:ℤ) - e) * (2:ℚ) ^ (e - 52)
              + (1/2) * (2:ℚ) ^ (e - 52) := by ring
          _ = q + (2:ℚ) ^ (e - 53) := by rw [hqq, hhalf]

lemma normalize_words_sanity : normalize_words (ofString "We need a Python developer familiar with SQL") =
    [ofString "we", ofString "need", ofString "python", ofString "developer",
     ofString "familiar", ofString "with", ofString "sql"] := by decide

lemma ats_score_sanity : ats_score (ofString "Experienced Python developer with Go and SQL skills")
    (ofString "We need a Python developer familiar with SQL") = fl (5714/100) := by
  have hne : (normalize_words (ofString "We need a Python developer familiar with SQL")).toFinset
      ≠ ∅ := by decide
  have hi : ((normalize_words (ofString "Experienced Python developer with Go and SQL skills")).toFinset
      ∩ (normalize_words (ofString "We need a Python developer familiar with SQL")).toFinset).card = 4 := by decide
  have hj : (normalize_words (ofString "We need a Python developer familiar with SQL")).toFinset.card = 7 := by decide
  simp only [ats_score, if_neg hne, hi, hj, pyRound2]
  have hq : ((4 : ℕ) : ℚ) / ((7 : ℕ) : ℚ) = 4/7 := by norm_num
  rw [hq]
  have hx1 : fl ((4:ℚ)/7) = 5146971002709138/9007199254740992 := by
    have hr : roundHalfEven ((4:ℚ)/7 * (2:ℚ) ^ ((52:ℤ) - (-1))) = 5146971002709138 := by
      have harg : (4:ℚ)/7 * (2:ℚ) ^ ((52:ℤ) - (-1)) = 36028797018963968/7 := by norm_num
      rw [harg]
      exact roundHalfEven_eq_low _ _ (by norm_num) (by norm_num)
    rw [fl_eval (by norm_num) (by norm_num) (by norm_num) hr]
    norm_num
  rw [hx1]
  have hx2 : fl ((5146971002709138:ℚ)/9007199254740992 * 100)
      = 8042142191733028/140737488355328 := by
    have hr : roundHalfEven ((5146971002709138:ℚ)/9007199254740992 * 100
        * (2:ℚ) ^ ((52:ℤ) - 5)) = 8042142191733028 := by
      have harg : (5146971002709138:ℚ)/9007199254740992 * 100 * (2:ℚ) ^ ((52:ℤ) - 5)
          = 514697100270913800/64 := by norm_num
      rw [harg]
      exact roundHalfEven_eq_low _ _ (by norm_num) (by norm_num)
    rw [fl_eval (by norm_num) (by norm_num) (by norm_num) hr]
    norm_num
  rw [hx2]
  have hx3 : decRound2 ((8042142191733028:ℚ)/140737488355328) = 5714/100 := by
    rw [decRound2]
    have harg : (8042142191733028:ℚ)/140737488355328 * 100
        = 804214219173302800/140737488355328 := by norm_num
    rw [harg, roundHalfEven_eq_low _ 5714 (by norm_num) (by norm_num)]
    norm_num
  rw [hx3]

lemma ats_score_empty_sanity : ats_score (ofString "anything") (ofString "") = 0 := by
  have h : (normalize_words (ofString "")).toFinset = ∅ := by decide
  simp [ats_score, h]

lemma wordRunsAux_fuel :
    ∀ (f₁ : ℕ) (s : Text) (f₂ : ℕ), s.length ≤ f₁ → s.length ≤ f₂ →
      wordRunsAux f₁ s = wordRunsAux f₂ s := by
  intro f₁
  induction f₁ with
  | zero =>
    intro s f₂ h₁ _
    have : s = [] := List.length_eq_zero.mp (Nat.le_zero.mp h₁)
    subst this
    cases f₂ <;> rfl
  | succ f ih =>
    intro s f₂ h₁ h₂
    cases s with
    | nil => cases f₂ <;> rfl
    | cons c rest =>
      cases f₂ with
      | zero => simp at h₂
      | succ g =>
        simp only [List.length_cons, Nat.succ_le_succ_iff] at h₁ h₂
        have hdrop₁ : (rest.dropWhile isWordChar).length ≤ f :=
          le_trans (List.dropWhile_sublist isWordChar).length_le h₁
        have hdrop₂ : (rest.dropWhile isWordChar).length ≤ g :=
          le_trans (List.dropWhile_sublist isWordChar).length_le h₂
        simp only [wordRunsAux]
        rw [ih rest g h₁ h₂, ih (rest.dropWhile isWordChar) g hdrop₁ hdrop₂]

/-- Fuel-free unfolding of `wordRuns` on a cons cell. -/
lemma wordRuns_cons (c : ℕ) (rest : Text) :
    wordRuns (c :: rest) =
      if isWordChar c then
        (c :: rest.takeWhile isWordChar) :: wordRuns (rest.dropWhile isWordChar)
      else wordRuns rest := by
  show wordRunsAux (rest.length + 1) (c :: rest) = _
  simp only [wordRunsAux]
  rw [wordRunsAux_fuel rest.length (rest.dropWhile isWordChar) (rest.dropWhile isWordChar).length
      (List.dropWhile_sublist isWordChar).length_le le_rfl]
  rfl

lemma wordRuns_nil : wordRuns [] = [] := rfl

/-! ### Tokenizer structure: `finditerWORD_RE` versus maximal word-character runs -/

lemma dropWhile_eq_self_of_takeWhile_nil {p : ℕ → Bool} {l : Text}
    (h : l.takeWhile p = []) : l.dropWhile p = l := by
  cases l with
  | nil => rfl
  | cons a as =>
    rw [List.takeWhile_cons] at h
    rw [List.dropWhile_cons]
    split at h
    · simp at h
    · simp_all

lemma takeWhile_dropWhile_nil (p : ℕ → Bool) (l : Text) :
    (l.dropWhile p).takeWhile p = [] := by
  cases hd : l.dropWhile p with
  | nil => rfl
  | cons x xs =>
    have := List.head?_dropWhile_not p l
    rw [hd] at this
    simp only [List.head?_cons, Option.some.injEq] at this
    rw [List.takeWhile_cons]
    simp_all

lemma takeWhile_append_of_all {p : ℕ → Bool} {l : Text} (r : Text)
    (h : ∀ c ∈ l, p c = true) : (l ++ r).takeWhile p = l ++ r.takeWhile p := by
  induction l with
  | nil => simp
  | cons a as ih =>
    simp [List.cons_append, List.takeWhile_cons, h a (List.mem_cons_self a as),
      ih (fun c hc => h c (List.mem_cons_of_mem a hc))]

lemma dropWhile_append_of_all {p : ℕ → Bool} {l : Text} (r : Text)
    (h : ∀ c ∈ l, p c = true) : (l ++ r).dropWhile p = r.dropWhile p := by
  induction l with
  | nil => simp
  | cons a as ih =>
    simp only [List.cons_append, List.dropWhile_cons, h a (List.mem_cons_self a as)]
    exact ih (fun c hc => h c (List.mem_cons_of_mem a hc))

lemma isWordChar_of_isLetter {c : ℕ} (h : isLetter c = true) : isWordChar c = true := by
  simp [isWordChar, h]

/-- Scanning a full word-character run followed by text that starts with a
non-word character: the run contributes exactly its `tokenOfRun` match, and
scanning continues past the run. -/
lemma finditerWORD_RE_run_append (run rest : Text)
    (hrun : ∀ c ∈ run, isWordChar c = true)
    (hrest : rest.takeWhile isWordChar = []) :
    finditerWORD_RE (run ++ rest) = (tokenOfRun run).toList ++ finditerWORD_RE rest := by
  induction run with
  | nil => simp [tokenOfRun]
  | cons c run' ih =>
    have hc : isWordChar c = true := hrun c (List.mem_cons_self c run')
    have hrun' : ∀ d ∈ run', isWordChar d = true :=
      fun d hd => hrun d (List.mem_cons_of_mem c hd)
    by_cases hl : isLetter c = true
    · have htake : (run' ++ rest).takeWhile isWordChar = run' := by
        rw [takeWhile_append_of_all rest hrun', hrest, List.append_nil]
      cases run' with
      | nil =>
        rw [List.cons_append, finditerWORD_RE_cons, if_pos hl]
        simp only [List.nil_append] at htake ⊢
        rw [if_pos htake]
        have : tokenOfRun [c] = none := by
          simp [tokenOfRun, List.dropWhile_cons, hl]
        rw [this, Option.toList_none, List.nil_append]
      | cons d run'' =>
        rw [List.cons_append, finditerWORD_RE_cons, if_pos hl]
        rw [if_neg (by rw [htake]; simp), htake]
        have hdrop : ((d :: run'') ++ rest).dropWhile isWordChar = rest := by
          rw [dropWhile_append_of_all rest hrun', dropWhile_eq_self_of_takeWhile_nil hrest]
        rw [hdrop]
        have : tokenOfRun (c :: d :: run'') = some (c :: d :: run'') := by
          have : (c :: d :: run'').dropWhile (fun x => !isLetter x) = c :: d :: run'' := by
            rw [List.dropWhile_cons]
            simp [hl]
          simp [tokenOfRun, this]
        rw [this, Option.toList_some, List.singleton_append]
    · rw [List.cons_append, finditerWORD_RE_cons, if_neg (by simp_all)]
      have : tokenOfRun (c :: run') = tokenOfRun run' := by
        have : (c :: run').dropWhile (fun x => !isLetter x) =
            run'.dropWhile (fun x => !isLetter x) := by
          rw [List.dropWhile_cons]
          simp [hl]
        simp [tokenOfRun, this]
      rw [this, ih hrun']

/-- The regex matches of a text are exactly the contributions of its
maximal word-character runs, in order. -/
lemma finditerWORD_RE_eq_filterMap (s : Text) :
    finditerWORD_RE s = (wordRuns s).filterMap tokenOfRun := by
  have main : ∀ (n : ℕ) (t : Text), t.length ≤ n →
      finditerWORD_RE t = (wordRuns t).filterMap tokenOfRun := by
    intro n
    induction n with
    | zero =>
      intro t ht
      have : t = [] := List.length_eq_zero.mp (Nat.le_zero.mp ht)
      subst this
      rfl
    | succ n ih =>
      intro t ht
      cases t with
      | nil => rfl
      | cons c rest =>
        simp only [List.length_cons, Nat.succ_le_succ_iff] at ht
        by_cases hw : isWordChar c = true
        · have hsplit : c :: rest =
              (c :: rest.takeWhile isWordChar) ++ rest.dropWhile isWordChar := by
            rw [List.cons_append, List.takeWhile_append_dropWhile]
          have hrun : ∀ d ∈ c :: rest.takeWhile isWordChar, isWordChar d = true := by
            intro d hd
            rcases List.mem_cons.mp hd with h | h
            · exact h ▸ hw
            · exact List.mem_takeWhile_imp h
          have hb : (rest.dropWhile isWordChar).takeWhile isWordChar = [] :=
            takeWhile_dropWhile_nil isWordChar rest
          rw [hsplit, finditerWORD_RE_run_append _ _ hrun hb]
          rw [← hsplit, wordRuns_cons, if_pos hw]
          rw [List.filterMap_cons]
          have hlen : (rest.dropWhile isWordChar).length ≤ n :=
            le_trans (List.dropWhile_sublist isWordChar).length_le ht
          cases htok : tokenOfRun (c :: rest.takeWhile isWordChar) with
          | none => simp [ih _ hlen]
          | some tok => simp [ih _ hlen]
        · have hl : ¬ isLetter c = true := fun h => hw (isWordChar_of_isLetter h)
          rw [finditerWORD_RE_cons, if_neg hl, wordRuns_cons, if_neg hw]
          exact ih rest ht
  exact main s.length s le_rfl

/-- Every regex match is a letter followed by at least one more
word-class character. -/
lemma finditerWORD_RE_shape (s : Text) :
    ∀ t ∈ finditerWORD_RE s, ∃ c cs, t = c :: cs ∧ isLetter c = true ∧ cs ≠ [] ∧
      ∀ d ∈ cs, isWordChar d = true := by
  have main : ∀ (n : ℕ) (u : Text), u.length ≤ n →
      ∀ t ∈ finditerWORD_RE u, ∃ c cs, t = c :: cs ∧ isLetter c = true ∧ cs ≠ [] ∧
        ∀ d ∈ cs, isWordChar d = true := by
    intro n
    induction n with
    | zero =>
      intro u hu
      have : u = [] := List.length_eq_zero.mp (Nat.le_zero.mp hu)
      subst this
      simp [finditerWORD_RE_nil]
    | succ n ih =>
      intro u hu t ht
      cases u with
      | nil => simp [finditerWORD_RE_nil] at ht
      | cons c rest =>
        simp only [List.length_cons, Nat.succ_le_succ_iff] at hu
        rw [finditerWORD_RE_cons] at ht
        by_cases hl : isLetter c = true
        · rw [if_pos hl] at ht
          by_cases hemp : rest.takeWhile isWordChar = []
          · rw [if_pos hemp] at ht
            exact ih rest hu t ht
          · rw [if_neg hemp] at ht
            rcases List.mem_cons.mp ht with h | h
            · exact ⟨c, rest.takeWhile isWordChar, h, hl, hemp,
                fun d hd => List.mem_takeWhile_imp hd⟩
            · exact ih _ (le_trans (List.dropWhile_sublist isWordChar).length_le hu) t h
        · rw [if_neg hl] at ht
          exact ih rest hu t ht
  exact main s.length s le_rfl

/-! ### ASCII case maps and the tokenizer -/

lemma asciiLower_asciiLower (c : ℕ) : asciiLower (asciiLower c) = asciiLower c := by
  simp only [asciiLower]
  split_ifs <;> omega

lemma asciiLower_asciiUpper (c : ℕ) : asciiLower (asciiUpper c) = asciiLower c := by
  simp only [asciiLower, asciiUpper]
  split_ifs <;> omega

lemma isLetter_asciiUpper (c : ℕ) : isLetter (asciiUpper c) = isLetter c := by
  simp only [isLetter, asciiUpper]
  split_ifs with h
  · rw [decide_eq_decide]; omega
  · rfl

lemma isLetter_asciiLower (c : ℕ) : isLetter (asciiLower c) = isLetter c := by
  simp only [isLetter, asciiLower]
  split_ifs with h
  · rw [decide_eq_decide]; omega
  · rfl

lemma isWordChar_asciiUpper (c : ℕ) : isWordChar (asciiUpper c) = isWordChar c := by
  simp only [isWordChar, isLetter, asciiUpper]
  split_ifs with h
  · simp only [← Bool.decide_or, decide_eq_decide]; omega
  · rfl

lemma isWordChar_asciiLower (c : ℕ) : isWordChar (asciiLower c) = isWordChar c := by
  simp only [isWordChar, isLetter, asciiLower]
  split_ifs with h
  · simp only [← Bool.decide_or, decide_eq_decide]; omega
  · rfl

/-- The regex scanner commutes with any character map that preserves the
two character classes. -/
lemma finditerWORD_RE_map (f : ℕ → ℕ)
    (hL : ∀ c, isLetter (f c) = isLetter c)
    (hW : ∀ c, isWordChar (f c) = isWordChar c) (s : Text) :
    finditerWORD_RE (s.map f) = (finditerWORD_RE s).map (List.map f) := by
  have hcomp : isWordChar ∘ f = isWordChar := funext hW
  have main : ∀ (n : ℕ) (u : Text), u.length ≤ n →
      finditerWORD_RE (u.map f) = (finditerWORD_RE u).map (List.map f) := by
    intro n
    induction n with
    | zero =>
      intro u hu
      have : u = [] := List.length_eq_zero.mp (Nat.le_zero.mp hu)
      subst this
      rfl
    | succ n ih =>
      intro u hu
      cases u with
      | nil => rfl
      | cons c rest =>
        simp only [List.length_cons, Nat.succ_le_succ_iff] at hu
        rw [List.map_cons, finditerWORD_RE_cons, finditerWORD_RE_cons (c := c),
          hL c, List.takeWhile_map, List.dropWhile_map, hcomp]
        by_cases hl : isLetter c = true
        · rw [if_pos hl, if_pos hl]
          by_cases hemp : rest.takeWhile isWordChar = []
          · rw [hemp]
            simp only [List.map_nil, if_pos rfl]
            exact ih rest hu
          · rw [if_neg (by simp [hemp]), if_neg hemp]
            rw [List.map_cons] at *
            rw [ih (rest.dropWhile isWordChar)
              (le_trans (List.dropWhile_sublist isWordChar).length_le hu)]
            simp
        · rw [if_neg hl, if_neg hl]
          exact ih rest hu
  exact main s.length s le_rfl

/-- `normalize_words` is invariant under any character map that preserves
the character classes and is erased by lowercasing. -/
lemma normalize_words_map (f : ℕ → ℕ)
    (hL : ∀ c, isLetter (f c) = isLetter c)
    (hW : ∀ c, isWordChar (f c) = isWordChar c)
    (hlow : ∀ c, asciiLower (f c) = asciiLower c) (s : Text) :
    normalize_words (s.map f) = normalize_words s := by
  unfold normalize_words
  rw [finditerWORD_RE_map f hL hW, List.map_map]
  congr 1
  funext t
  simp only [Function.comp_apply, List.map_map]
  congr 1
  funext c
  exact hlow c

/-! ### Rounding and score bounds -/

lemma pyRound2_nonneg {x : ℚ} (hx : 0 ≤ x) : 0 ≤ pyRound2 x := by
  apply fl_nonneg
  rw [decRound2]
  apply div_nonneg _ (by norm_num)
  exact_mod_cast roundHalfEven_nonneg (mul_nonneg hx (by norm_num))

lemma pyRound2_le_100 {x : ℚ} (hx : x ≤ 100) : pyRound2 x ≤ 100 := by
  have h1 : decRound2 x ≤ ((100:ℤ):ℚ) := by
    rw [decRound2, div_le_iff₀ (by norm_num : (0:ℚ) < 100)]
    have h2 : x * 100 ≤ ((10000:ℤ):ℚ) := by push_cast; nlinarith
    have h3 := roundHalfEven_le_int h2
    have h4 : ((roundHalfEven (x * 100)):ℚ) ≤ ((10000:ℤ):ℚ) := Int.cast_le.mpr h3
    push_cast at h4 ⊢
    linarith
  have := fl_le_intN (N := 100) (by norm_num) h1 (by norm_num)
  exact_mod_cast this

lemma ats_score_nonneg (r j : Text) : 0 ≤ ats_score r j := by
  simp only [ats_score]
  split_ifs with h
  · exact le_refl 0
  · apply pyRound2_nonneg
    apply fl_nonneg
    apply mul_nonneg _ (by norm_num)
    exact fl_nonneg (div_nonneg (by positivity) (by positivity))

lemma ats_score_le_100 (r j : Text) : ats_score r j ≤ 100 := by
  simp only [ats_score]
  split_ifs with h
  · norm_num
  · have hcard : (((normalize_words r).toFinset ∩ (normalize_words j).toFinset).card : ℚ)
        ≤ ((normalize_words j).toFinset.card : ℚ) := by
      exact_mod_cast Finset.card_le_card Finset.inter_subset_right
    have hpos : (0 : ℚ) < ((normalize_words j).toFinset.card : ℚ) := by
      have : (normalize_words j).toFinset.Nonempty := Finset.nonempty_iff_ne_empty.mpr h
      exact_mod_cast Finset.card_pos.mpr this
    have hdiv : (((normalize_words r).toFinset ∩ (normalize_words j).toFinset).card : ℚ)
        / ((normalize_words j).toFinset.card : ℚ) ≤ 1 := (div_le_one hpos).mpr hcard
    have hdiv0 : (0:ℚ) ≤ (((normalize_words r).toFinset ∩ (normalize_words j).toFinset).card : ℚ)
        / ((normalize_words j).toFinset.card : ℚ) := div_nonneg (by positivity) (by positivity)
    have hx1le : fl ((((normalize_words r).toFinset ∩ (normalize_words j).toFinset).card : ℚ)
        / ((normalize_words j).toFinset.card : ℚ)) ≤ 1 := by
      have := fl_le_intN (N := 1) (by norm_num)
        (by exact_mod_cast hdiv) (by norm_num)
      exact_mod_cast this
    have hx10 : (0:ℚ) ≤ fl ((((normalize_words r).toFinset ∩ (normalize_words j).toFinset).card : ℚ)
        / ((normalize_words j).toFinset.card : ℚ)) := fl_nonneg hdiv0
    have hx2le : fl (fl ((((normalize_words r).toFinset ∩ (normalize_words j).toFinset).card : ℚ)
        / ((normalize_words j).toFinset.card : ℚ)) * 100) ≤ 100 := by
      have hm : fl ((((normalize_words r).toFinset ∩ (normalize_words j).toFinset).card : ℚ)
          / ((normalize_words j).toFinset.card : ℚ)) * 100 ≤ ((100:ℤ):ℚ) := by
        push_cast
        nlinarith
      have := fl_le_intN (N := 100) (by norm_num) hm (by norm_num)
      exact_mod_cast this
    exact pyRound2_le_100 hx2le

/-! ### Filter, loader and logger characterizations -/

lemma filter_jobs_by_score_eq (jobs : List Job) (r : Text) (t : ℚ) :
    filter_jobs_by_score jobs r t =
      (jobs.map (fun job => (job, ats_score r job.description))).filter
        (fun p => decide (t ≤ p.2)) := by
  suffices h : ∀ (js : List Job) (init : List (Job × ℚ)),
      js.foldl (fun results job =>
        if t ≤ ats_score r job.description
        then results ++ [(job, ats_score r job.description)]
        else results) init
      = init ++ (js.map (fun job => (job, ats_score r job.description))).filter
          (fun p => decide (t ≤ p.2)) by
    simpa [filter_jobs_by_score] using h jobs []
  intro js
  induction js with
  | nil => intro init; simp
  | cons j js ih =>
    intro init
    simp only [List.foldl_cons, List.map_cons, List.filter_cons]
    by_cases h : t ≤ ats_score r j.description
    · rw [if_pos h, ih]
      simp [h]
    · rw [if_neg h, ih]
      simp [h]

lemma load_jobs_eq (data : List RawJob) : load_jobs data = data.map jobOfRaw := by
  suffices h : ∀ (l : List RawJob) (init : List Job),
      l.foldl (fun jobs item =>
        jobs ++ [{ job_id := pyStr (item.id.getD (PyVal.str []))
                   title := item.title.getD []
                   company := item.company.getD []
                   location := item.location.getD []
                   description := item.description.getD []
                   url := item.url.getD [] }]) init = init ++ l.map jobOfRaw by
    simpa [load_jobs] using h data []
  intro l
  induction l with
  | nil => intro init; simp
  | cons item l ih =>
    intro init
    simp only [List.foldl_cons, List.map_cons]
    rw [ih]
    simp [jobOfRaw]

lemma apply_to_jobs_eq (pairs : List (Job × ℚ)) (ts log : Text) :
    apply_to_jobs pairs ts log = log ++ (run_entries pairs ts).flatten := by
  suffices h : ∀ (ps : List (Job × ℚ)) (acc : Text),
      ps.foldl (fun acc p => log_application acc ts p.1 p.2) acc
        = acc ++ (run_entries ps ts).flatten by
    simpa [apply_to_jobs] using h pairs log
  intro ps
  induction ps with
  | nil => intro acc; simp [run_entries]
  | cons p ps ih =>
    intro acc
    rw [List.foldl_cons, ih]
    simp [log_application, run_entries, List.append_assoc]

lemma natDec_sanity : natDec 9150 = ofString "9150" := by decide

lemma format2_sanity : format2 (183/2) = ofString "91.50" := by
  have h : roundHalfEven ((183 : ℚ)/2 * 100) = 9150 :=
    roundHalfEven_eq_low _ 9150 (by norm_num) (by norm_num)
  rw [format2, h]
  decide

/-! ### Further shared helpers for the claims -/

lemma ats_score_of_no_tokens (r j : Text) (h : normalize_words j = []) :
    ats_score r j = 0 := by
  simp [ats_score, h]

lemma filter_sublist_filter {α : Type} (l : List α) {p q : α → Bool}
    (h : ∀ a, p a = true → q a = true) : List.Sublist (l.filter p) (l.filter q) := by
  induction l with
  | nil => simp
  | cons a as ih =>
    by_cases hpa : p a = true
    · rw [List.filter_cons_of_pos hpa, List.filter_cons_of_pos (h a hpa)]
      exact ih.cons₂ a
    · rw [List.filter_cons_of_neg (by simpa using hpa)]
      by_cases hqa : q a = true
      · rw [List.filter_cons_of_pos hqa]
        exact ih.cons a
      · rw [List.filter_cons_of_neg (by simpa using hqa)]
        exact ih

/-! ### The claims -/

/-- C1 (corrected): for every resume text and job description, `ats_score`
returns `round(100 * |R ∩ J| / |J|, 2)` computed as the program computes
it, in binary64 floating point — a correctly rounded division, a
correctly rounded product with 100, then Python `round` (exact decimal
rounding of the float's value, returned as the nearest float) — whenever
`J` is non-empty; the result is always within `[0, 100]`.  (The original
exact-arithmetic formula fails on the code: see the counterexample.) -/
theorem claim_C1 (r j : Text) :
    (0 ≤ ats_score r j ∧ ats_score r j ≤ 100) ∧
    ((normalize_words j).toFinset ≠ ∅ →
      ats_score r j = fl (decRound2 (fl (fl
        ((((normalize_words r).toFinset ∩ (normalize_words j).toFinset).card : ℚ)
          / ((normalize_words j).toFinset.card : ℚ)) * 100)))) := by
  refine ⟨⟨ats_score_nonneg r j, ats_score_le_100 r j⟩, fun h => ?_⟩
  simp only [ats_score, if_neg h, pyRound2]

theorem claim_C1_wit :
    (normalize_words (ofString "we need python")).toFinset ≠ ∅ ∧
    ats_score (ofString "python sql") (ofString "we need python") = fl (decRound2 (fl (fl
      ((((normalize_words (ofString "python sql")).toFinset
          ∩ (normalize_words (ofString "we need python")).toFinset).card : ℚ)
        / ((normalize_words (ofString "we need python")).toFinset.card : ℚ)) * 100))) :=
  ⟨by decide, (claim_C1 (ofString "python sql") (ofString "we need python")).2 (by decide)⟩

set_option maxRecDepth 40000 in
/-- C1, counterexample to the claim as stated: with 23 shared tokens out
of 160 job tokens the exact percentage is 14.375, a decimal
half-boundary.  The binary64 quotient `23/160` is slightly below the
exact value, the program's score rounds down to 14.37, but the exact
formula `round(100 * 23 / 160, 2)` rounds half-to-even up to 14.38. -/
theorem claim_C1_cex :
    ats_score resumeCex jobCex ≠ decRound2
      (100 * (((normalize_words resumeCex).toFinset ∩ (normalize_words jobCex).toFinset).card : ℚ)
        / ((normalize_words jobCex).toFinset.card : ℚ)) := by
  have hne : (normalize_words jobCex).toFinset ≠ ∅ := by decide
  have hm : ((normalize_words resumeCex).toFinset ∩ (normalize_words jobCex).toFinset).card
      = 23 := by decide
  have hn : (normalize_words jobCex).toFinset.card = 160 := by decide
  rw [hm, hn]
  simp only [ats_score, if_neg hne, pyRound2, hm, hn]
  have hq : ((23 : ℕ) : ℚ) / ((160 : ℕ) : ℚ) = 23/160 := by norm_num
  have hq2 : 100 * ((23 : ℕ) : ℚ) / ((160 : ℕ) : ℚ) = 1437/100 + 1/200 := by norm_num
  rw [hq, hq2]
  have hrhs : decRound2 ((1437:ℚ)/100 + 1/200) = 1438/100 := by
    rw [decRound2]
    have harg : ((1437:ℚ)/100 + 1/200) * 100 = (1437 : ℤ) + 1/2 := by norm_num
    rw [harg, roundHalfEven_eq_half _ 1437 rfl]
    norm_num
  rw [hrhs]
  have hx1 : fl ((23:ℚ)/160) = 5179139571476070/36028797018963968 := by
    have hr : roundHalfEven ((23:ℚ)/160 * (2:ℚ) ^ ((52:ℤ) - (-3)))
        = 5179139571476070 := by
      have harg : (23:ℚ)/160 * (2:ℚ) ^ ((52:ℤ) - (-3)) = 828662331436171264/160 := by
        norm_num
      rw [harg]
      exact roundHalfEven_eq_low _ _ (by norm_num) (by norm_num)
    rw [fl_eval (by norm_num) (by norm_num) (by norm_num) hr]
    norm_num
  rw [hx1]
  have hx2 : fl ((5179139571476070:ℚ)/36028797018963968 * 100)
      = 8092405580431359/562949953421312 := by
    have hr : roundHalfEven ((5179139571476070:ℚ)/36028797018963968 * 100
        * (2:ℚ) ^ ((52:ℤ) - 3)) = 8092405580431359 := by
      have harg : (5179139571476070:ℚ)/36028797018963968 * 100 * (2:ℚ) ^ ((52:ℤ) - 3)
          = 517913957147607000/64 := by norm_num
      rw [harg]
      exact roundHalfEven_eq_low _ _ (by norm_num) (by norm_num)
    rw [fl_eval (by norm_num) (by norm_num) (by norm_num) hr]
    norm_num
  rw [hx2]
  have hx3 : decRound2 ((8092405580431359:ℚ)/562949953421312) = 1437/100 := by
    rw [decRound2]
    have harg : (8092405580431359:ℚ)/562949953421312 * 100
        = 809240558043135900/562949953421312 := by norm_num
    rw [harg, roundHalfEven_eq_low _ 1437 (by norm_num) (by norm_num)]
    norm_num
  rw [hx3]
  have hlt : fl ((1437:ℚ)/100) < 1438/100 := by
    have hub := fl_le_add (q := (1437:ℚ)/100) (e := 3) (by norm_num) (by norm_num) (by norm_num)
    have h2 : (2:ℚ) ^ ((3:ℤ) - 53) < 1/100 := by norm_num
    linarith
  exact ne_of_lt hlt

/-- C2: a job description with zero normalized tokens (in particular the
empty string) scores exactly 0 for every resume; the filter excludes such
a posting at every strictly positive threshold, and it can pass when the
threshold is 0 or negative. -/
theorem claim_C2 :
    (∀ r j : Text, normalize_words j = [] → ats_score r j = 0) ∧
    (∀ r : Text, ats_score r (ofString "") = 0) ∧
    (∀ (jobs : List Job) (r : Text) (t : ℚ) (job : Job) (s : ℚ),
      0 < t → normalize_words job.description = [] →
      (job, s) ∉ filter_jobs_by_score jobs r t) ∧
    (∀ (jobs : List Job) (r : Text) (t : ℚ) (job : Job),
      t ≤ 0 → job ∈ jobs →
      (job, ats_score r job.description) ∈ filter_jobs_by_score jobs r t) := by
  refine ⟨ats_score_of_no_tokens, fun r => ats_score_of_no_tokens r _ rfl, ?_, ?_⟩
  · intro jobs r t job s ht hdesc hmem
    rw [filter_jobs_by_score_eq, List.mem_filter] at hmem
    obtain ⟨hmap, hle⟩ := hmem
    obtain ⟨job', _, heq⟩ := List.mem_map.mp hmap
    have h2 : s = ats_score r job.description := by
      have h1 : job' = job := congrArg Prod.fst heq
      subst h1
      exact (congrArg Prod.snd heq).symm
    rw [h2, ats_score_of_no_tokens r _ hdesc] at hle
    simp only [decide_eq_true_eq] at hle
    exact absurd (lt_of_lt_of_le ht hle) (lt_irrefl 0)
  · intro jobs r t job ht hmem
    rw [filter_jobs_by_score_eq, List.mem_filter]
    refine ⟨List.mem_map.mpr ⟨job, hmem, rfl⟩, ?_⟩
    simp only [decide_eq_true_eq]
    exact le_trans ht (ats_score_nonneg r job.description)

theorem claim_C2_wit :
    (0 : ℚ) < 80 ∧
    normalize_words (Job.description ⟨[], [], [], [], [], []⟩) = [] ∧
    ((⟨[], [], [], [], [], []⟩ : Job), (0 : ℚ)) ∉
      filter_jobs_by_score [⟨[], [], [], [], [], []⟩] [] 80 :=
  ⟨by norm_num, rfl,
    claim_C2.2.2.1 [⟨[], [], [], [], [], []⟩] [] 80 ⟨[], [], [], [], [], []⟩ 0
      (by norm_num) rfl⟩

/-- C3: the normalizer maps text to the lowercased matches of the pattern
"a letter followed by at least one letter/digit/`+`/`.`/`#`/`-`", one
maximal match per maximal word-character run, in order (so tokens such as
`c++` and `c#` survive as single units); every match starts with a letter
and continues with word-class characters, and every emitted token is fixed
by lowercasing.  (Determinism and purity hold because `normalize_words` is
a function of the text alone.) -/
theorem claim_C3 (s : Text) :
    normalize_words s = ((wordRuns s).filterMap tokenOfRun).map (fun t => t.map asciiLower) ∧
    (∀ t ∈ finditerWORD_RE s, ∃ c cs, t = c :: cs ∧ isLetter c = true ∧ cs ≠ [] ∧
      ∀ d ∈ cs, isWordChar d = true) ∧
    (∀ t ∈ normalize_words s, ∀ c ∈ t, asciiLower c = c) := by
  refine ⟨by rw [normalize_words, finditerWORD_RE_eq_filterMap], finditerWORD_RE_shape s, ?_⟩
  intro t ht c hc
  obtain ⟨u, _, rfl⟩ := List.mem_map.mp ht
  obtain ⟨d, _, rfl⟩ := List.mem_map.mp hc
  exact asciiLower_asciiLower d

theorem claim_C3_wit :
    ofString "c++" ∈ finditerWORD_RE (ofString "a c++ dev") ∧
    (∃ c cs, ofString "c++" = c :: cs ∧ isLetter c = true ∧ cs ≠ [] ∧
      ∀ d ∈ cs, isWordChar d = true) :=
  ⟨by decide, (claim_C3 (ofString "a c++ dev")).2.1 (ofString "c++") (by decide)⟩

/-- C4: `ats_score` is unchanged by uppercasing or lowercasing either
input, and depends only on each input's set of normalized tokens, so
token reordering and duplication change neither the numerator nor the
denominator. -/
theorem claim_C4 (r j : Text) :
    (ats_score (r.map asciiUpper) j = ats_score r j ∧
     ats_score (r.map asciiLower) j = ats_score r j ∧
     ats_score r (j.map asciiUpper) = ats_score r j ∧
     ats_score r (j.map asciiLower) = ats_score r j) ∧
    (∀ r' j' : Text,
      (normalize_words r).toFinset = (normalize_words r').toFinset →
      (normalize_words j).toFinset = (normalize_words j').toFinset →
      ats_score r j = ats_score r' j') := by
  have hup : ∀ s : Text, normalize_words (s.map asciiUpper) = normalize_words s :=
    normalize_words_map asciiUpper isLetter_asciiUpper isWordChar_asciiUpper asciiLower_asciiUpper
  have hlo : ∀ s : Text, normalize_words (s.map asciiLower) = normalize_words s :=
    normalize_words_map asciiLower isLetter_asciiLower isWordChar_asciiLower asciiLower_asciiLower
  constructor
  · refine ⟨?_, ?_, ?_, ?_⟩ <;> simp only [ats_score, hup, hlo]
  · intro r' j' hr hj
    simp only [ats_score, hr, hj]

theorem claim_C4_wit :
    (normalize_words (ofString "go sql")).toFinset =
      (normalize_words (ofString "SQL go go")).toFinset ∧
    (normalize_words (ofString "python")).toFinset =
      (normalize_words (ofString "python")).toFinset ∧
    ats_score (ofString "go sql") (ofString "python") =
      ats_score (ofString "SQL go go") (ofString "python") :=
  ⟨by decide, rfl,
    (claim_C4 (ofString "go sql") (ofString "python")).2
      (ofString "SQL go go") (ofString "python") (by decide) rfl⟩

/-- C5: the filter returns exactly the (posting, score) pairs whose score
meets the threshold, each score being `ats_score` of the resume against
that posting's description, in input order (the result is a sublist of
the in-order scored sequence); it is a pure function. -/
theorem claim_C5 (jobs : List Job) (r : Text) (t : ℚ) :
    filter_jobs_by_score jobs r t =
      (jobs.map (fun job => (job, ats_score r job.description))).filter
        (fun p => decide (t ≤ p.2)) ∧
    List.Sublist (filter_jobs_by_score jobs r t)
      (jobs.map (fun job => (job, ats_score r job.description))) ∧
    (∀ p : Job × ℚ, p ∈ filter_jobs_by_score jobs r t ↔
      ((∃ job ∈ jobs, p = (job, ats_score r job.description)) ∧ t ≤ p.2)) := by
  refine ⟨filter_jobs_by_score_eq jobs r t, ?_, ?_⟩
  · rw [filter_jobs_by_score_eq]
    exact List.filter_sublist _
  · intro p
    rw [filter_jobs_by_score_eq, List.mem_filter]
    simp only [List.mem_map, decide_eq_true_eq]
    constructor
    · rintro ⟨⟨job, hjob, rfl⟩, hle⟩
      exact ⟨⟨job, hjob, rfl⟩, hle⟩
    · rintro ⟨⟨job, hjob, rfl⟩, hle⟩
      exact ⟨⟨job, hjob, rfl⟩, hle⟩

/-- C6: filtering is monotonic in the threshold: when `t ≤ t'`, the
output at `t'` is a sublist of the output at `t`, and in particular every
posting retained at the higher threshold is retained at the lower one. -/
theorem claim_C6 (jobs : List Job) (r : Text) (t t' : ℚ) (h : t ≤ t') :
    List.Sublist (filter_jobs_by_score jobs r t') (filter_jobs_by_score jobs r t) ∧
    ∀ p ∈ filter_jobs_by_score jobs r t', p ∈ filter_jobs_by_score jobs r t := by
  have hsub : List.Sublist (filter_jobs_by_score jobs r t') (filter_jobs_by_score jobs r t) := by
    rw [filter_jobs_by_score_eq, filter_jobs_by_score_eq]
    apply filter_sublist_filter
    intro a ha
    simp only [decide_eq_true_eq] at ha ⊢
    exact le_trans h ha
  exact ⟨hsub, fun p hp => hsub.subset hp⟩

theorem claim_C6_wit :
    (0 : ℚ) ≤ 50 ∧
    List.Sublist (filter_jobs_by_score [⟨[], [], [], [], [], []⟩] [] 50)
      (filter_jobs_by_score [⟨[], [], [], [], [], []⟩] [] 0) :=
  ⟨by norm_num, (claim_C6 [⟨[], [], [], [], [], []⟩] [] 0 50 (by norm_num)).1⟩

/-- C7: the loader produces exactly one `Job` per input record, in input
order; every absent field becomes the empty string and the identifier is
coerced to text (all six fields are text in `Job`). -/
theorem claim_C7 (data : List RawJob) :
    load_jobs data = data.map jobOfRaw ∧
    (load_jobs data).length = data.length ∧
    (∀ i : ℕ, (load_jobs data)[i]? = (data[i]?).map jobOfRaw) := by
  refine ⟨load_jobs_eq data, ?_, ?_⟩
  · rw [load_jobs_eq]
    exact List.length_map data jobOfRaw
  · intro i
    rw [load_jobs_eq]
    exact List.getElem?_map jobOfRaw data i

/-- C8: one `log_application` call appends exactly one entry of the form
`timestamp | APPLIED | id | title | company | location | score | url`
with a single terminating newline; the score is always rendered with a
`.` followed by exactly two decimal digits; and the spec's example posting
with score 91.5 renders as
`<timestamp> | APPLIED | 42 | Backend Engineer | Acme | Remote | 91.50 | http://x/42`. -/
theorem claim_C8 :
    (∀ (log ts : Text) (job : Job) (score : ℚ),
      log_application log ts job score =
        log ++ (ts ++ ofString " | APPLIED | " ++ job.job_id ++ ofString " | " ++ job.title ++
          ofString " | " ++ job.company ++ ofString " | " ++ job.location ++ ofString " | " ++
          format2 score ++ ofString " | " ++ job.url ++ [10])) ∧
    (∀ score : ℚ, ∃ (pre : Text) (b c : ℕ),
      format2 score = pre ++ [46, b, c] ∧ 48 ≤ b ∧ b ≤ 57 ∧ 48 ≤ c ∧ c ≤ 57) ∧
    (∀ ts : Text,
      application_entry ts
        { job_id := ofString "42", title := ofString "Backend Engineer",
          company := ofString "Acme", location := ofString "Remote",
          description := [], url := ofString "http://x/42" } (183/2) =
      ts ++ ofString " | APPLIED | 42 | Backend Engineer | Acme | Remote | 91.50 | http://x/42"
        ++ [10]) := by
  refine ⟨?_, ?_, ?_⟩
  · intro log ts job score
    rfl
  · intro score
    rw [format2]
    split_ifs with h
    · refine ⟨45 :: natDec ((roundHalfEven (score * 100)).natAbs / 100),
        48 + (roundHalfEven (score * 100)).natAbs % 100 / 10,
        48 + (roundHalfEven (score * 100)).natAbs % 10, ?_, by omega, by omega, by omega, by omega⟩
      simp [natFormat2]
    · refine ⟨natDec ((roundHalfEven (score * 100)).toNat / 100),
        48 + (roundHalfEven (score * 100)).toNat % 100 / 10,
        48 + (roundHalfEven (score * 100)).toNat % 10, ?_, by omega, by omega, by omega, by omega⟩
      simp [natFormat2]
  · intro ts
    have h : roundHalfEven ((183 : ℚ)/2 * 100) = 9150 :=
      roundHalfEven_eq_low _ 9150 (by norm_num) (by norm_num)
    rw [application_entry, format2, h]
    simp only [List.append_assoc]
    congr 1

/-- C9: logging only appends: the prior log content is an unchanged
prefix after a pass, and two identical passes append two equal batches of
entries, one entry per qualifying pair, doubling the number of appended
entries (no deduplication). -/
theorem claim_C9 (pairs : List (Job × ℚ)) (ts log : Text) :
    (∃ suffix, apply_to_jobs pairs ts log = log ++ suffix) ∧
    apply_to_jobs pairs ts (apply_to_jobs pairs ts log) =
      log ++ (run_entries pairs ts).flatten ++ (run_entries pairs ts).flatten ∧
    (run_entries pairs ts).length = pairs.length := by
  refine ⟨⟨(run_entries pairs ts).flatten, apply_to_jobs_eq pairs ts log⟩, ?_, ?_⟩
  · rw [apply_to_jobs_eq, apply_to_jobs_eq]
  · simp [run_entries]

/-- C10: every token the normalizer produces has length at least 2, and a
single-character text never yields a token; hence single-character words
contribute neither to the intersection nor to the job-vocabulary size. -/
theorem claim_C10 :
    (∀ (s : Text), ∀ t ∈ normalize_words s, 2 ≤ t.length) ∧
    (∀ c : ℕ, normalize_words [c] = []) := by
  constructor
  · intro s t ht
    obtain ⟨u, hu, rfl⟩ := List.mem_map.mp ht
    obtain ⟨c, cs, rfl, _, hne, _⟩ := finditerWORD_RE_shape s u hu
    have : 1 ≤ cs.length := List.length_pos.mpr hne
    simp only [List.length_map, List.length_cons]
    omega
  · intro c
    simp [normalize_words, finditerWORD_RE, finditerAux]

theorem claim_C10_wit :
    ofString "c#" ∈ normalize_words (ofString "a c# dev") ∧
    2 ≤ (ofString "c#").length :=
  ⟨by decide, claim_C10.1 (ofString "a c# dev") (ofString "c#") (by decide)⟩

end JobBot
